import Mathlib

/-!
Shallow embedding of the dependency-ordering and validation engine of the
UmbraCore developer tooling: the migration tracker
(`alpha-tools/python/alpha_migration_tracker.py`, class `MigrationTracker`)
and the Bazel dependency analyzer
(`alpha-tools/python/bazel_dependency_analyzer.py`, class `DependencyAnalyzer`).

Modelling conventions:
* a Python `dict` is an association list in insertion order with distinct
  keys (Python dicts preserve insertion order; `d[k]` / `k in d` is
  first-match lookup);
* a Python `set` of strings is a list of its elements in iteration order
  (iteration order of a `set` is unspecified, so nothing is assumed of it);
* `datetime.date` values are abstracted as `Nat`; `date.today()` becomes an
  explicit `today` argument; `isoformat`/`fromisoformat` is a bijection on
  valid dates, so the persisted date field is modelled by the date value
  itself;
* mutation of `self.modules` becomes explicit state passing: an operation
  on the tracker takes the module mapping and returns the new one.
-/

/-- Mirrors the Python enum `MigrationStatus` of the migration tracker. -/
inductive MigrationStatus where
  | notStarted
  | inProgress
  | completed
  | blocked
  | skipped
deriving DecidableEq, Repr

/-- Embeds the `.value` string of each `MigrationStatus` enum member. -/
def MigrationStatus.value : MigrationStatus → String
  | .notStarted => "Not Started"
  | .inProgress => "In Progress"
  | .completed => "Completed"
  | .blocked => "Blocked"
  | .skipped => "Skipped"

/-- Embeds the Python enum value lookup `MigrationStatus(s)`: `some` the member
whose `.value` is `s`, `none` when Python would raise `ValueError`. -/
def statusOfValue (s : String) : Option MigrationStatus :=
  if s = "Not Started" then some .notStarted
  else if s = "In Progress" then some .inProgress
  else if s = "Completed" then some .completed
  else if s = "Blocked" then some .blocked
  else if s = "Skipped" then some .skipped
  else none

/-- Mirrors the Python dataclass `ModuleInfo` of the migration tracker. -/
structure ModuleInfo where
  name : String
  status : MigrationStatus
  dependencies : List String
  dependents : List String
  migration_date : Option Nat := none
  blocking_issues : List String := []
  notes : String := ""
deriving DecidableEq, Repr

/-- The tracker's `self.modules : Dict[str, ModuleInfo]`, as an association
list in insertion order. -/
abbrev Store := List (String × ModuleInfo)

/-- First-match lookup in an association list: Python's `d[k]` / `d.get(k)`
on a string-keyed dict. -/
def lookupKey {β : Type} : List (String × β) → String → Option β
  | [], _ => none
  | p :: rest, k => if p.1 = k then some p.2 else lookupKey rest k

/-- Embeds `MigrationTracker._initialize_default_modules`: the eight
`add_module` calls, in insertion order, with the literal data of the source.
`today` stands for `datetime.date.today()`. -/
def initializeDefaultModules (today : Nat) : Store :=
  [ ("UmbraErrors",
      { name := "UmbraErrors", status := .completed, dependencies := [],
        dependents := ["CoreDTOs", "UserDefaults", "SecurityInterfaces"],
        migration_date := some today,
        notes := "Successfully migrated to Alpha Dot Five architecture." }),
    ("CoreDTOs",
      { name := "CoreDTOs", status := .inProgress,
        dependencies := ["UmbraErrors"],
        dependents := ["UserDefaults", "SecurityInterfaces"],
        notes := "Dependencies updated to use migrated UmbraErrors module." }),
    ("UserDefaults",
      { name := "UserDefaults", status := .notStarted,
        dependencies := ["UmbraErrors", "CoreDTOs"],
        dependents := ["SecurityInterfaces"],
        notes := "Planned for migration after CoreDTOs is complete." }),
    ("SecurityInterfaces",
      { name := "SecurityInterfaces", status := .notStarted,
        dependencies := ["UmbraErrors", "CoreDTOs", "UserDefaults"],
        dependents := [],
        notes := "Depends on UserDefaults migration." }),
    ("Notification",
      { name := "Notification", status := .notStarted,
        dependencies := ["UmbraErrors"], dependents := [] }),
    ("Scheduling",
      { name := "Scheduling", status := .notStarted,
        dependencies := ["UmbraErrors"], dependents := [] }),
    ("FileSystemTypes",
      { name := "FileSystemTypes", status := .notStarted,
        dependencies := [], dependents := ["CoreDTOs"] }),
    ("SecurityTypes",
      { name := "SecurityTypes", status := .notStarted,
        dependencies := [], dependents := ["CoreDTOs", "SecurityInterfaces"] }) ]

/-- One record of the persisted snapshot: the per-module JSON object written
by `MigrationTracker.save_data`. The `migration_date` field holds the date
value (the ISO-8601 string of the JSON, under the date/iso bijection). -/
structure SnapshotRecord where
  status : String
  dependencies : List String
  dependents : List String
  migration_date : Option Nat
  blocking_issues : List String
  notes : String
deriving DecidableEq, Repr

/-- Embeds `MigrationTracker.save_data`: the snapshot mapping (module name →
record) built from `self.modules`, in iteration order. -/
def saveData (ms : Store) : List (String × SnapshotRecord) :=
  ms.map (fun p =>
    (p.1,
      { status := p.2.status.value,
        dependencies := p.2.dependencies,
        dependents := p.2.dependents,
        migration_date := p.2.migration_date,
        blocking_issues := p.2.blocking_issues,
        notes := p.2.notes }))

/-- Embeds the per-entry loop of `MigrationTracker._load_data` over a parsed
snapshot: each record is turned back into a `ModuleInfo` keyed and named by
the snapshot key; an unknown status string makes Python's `MigrationStatus(...)`
raise `ValueError` (uncaught there), modelled as `none`. -/
def convertEntries : List (String × SnapshotRecord) → Option Store
  | [] => some []
  | (k, r) :: rest =>
    match statusOfValue r.status, convertEntries rest with
    | some st, some tail =>
      some ((k,
        { name := k, status := st, dependencies := r.dependencies,
          dependents := r.dependents, migration_date := r.migration_date,
          blocking_issues := r.blocking_issues, notes := r.notes }) :: tail)
    | _, _ => none

/-- Embeds `MigrationTracker._load_data` on an existing data file. The
argument is the outcome of `json.load`: `none` models a `json.JSONDecodeError`
(snapshot cannot be parsed), which the source catches by falling back to
`_initialize_default_modules`; `some data` is the parsed key→record mapping.
The result is `none` exactly when the load crashes (uncaught `ValueError`
from an unknown status string). -/
def loadData (today : Nat) (parsed : Option (List (String × SnapshotRecord))) :
    Option Store :=
  match parsed with
  | none => some (initializeDefaultModules today)
  | some data => convertEntries data

/-- The field updates `update_module_status` applies to the found module:
status is always assigned; the date is stamped with `today` when the new
status is Completed and no explicit date is given, else taken from the
explicit date when present; notes are replaced only when supplied. -/
def updateInfo (today : Nat) (status : MigrationStatus)
    (migration_date : Option Nat) (notes : Option String)
    (m : ModuleInfo) : ModuleInfo :=
  { m with
    status := status,
    migration_date :=
      if status = .completed ∧ migration_date = none then some today
      else match migration_date with
        | some d => some d
        | none => m.migration_date,
    notes :=
      match notes with
      | some n => n
      | none => m.notes }

/-- Embeds `MigrationTracker.update_module_status`: `false` and the store
unchanged when `name` is absent, else `true` and the named module updated in
place. -/
def updateModuleStatus (today : Nat) (ms : Store) (name : String)
    (status : MigrationStatus) (migration_date : Option Nat)
    (notes : Option String) : Bool × Store :=
  match lookupKey ms name with
  | none => (false, ms)
  | some _ =>
    (true,
      ms.map (fun p =>
        if p.1 = name then (p.1, updateInfo today status migration_date notes p.2)
        else p))

/-- Membership test `name in self.modules`. -/
def isModule (ms : Store) (name : String) : Bool :=
  (lookupKey ms name).isSome

/-- The dependency list `self.modules[name].dependencies` (defined as `[]`
off the domain; the source only reads it for names present in the store). -/
def depsOf (ms : Store) (name : String) : List String :=
  match lookupKey ms name with
  | some m => m.dependencies
  | none => []

/-- The mutable state of `get_migration_order`'s traversal: the `visited`
set (as the list of its elements, most recent first) and the `result`
sequence. -/
structure DfsState where
  visited : List String
  result : List String
deriving DecidableEq, Repr

/-- Embeds the inner `dfs` of `get_migration_order`: skip a visited module,
else mark it visited, recurse into each dependency present in the store, then
append the module to the result. Recursion is paid for by `fuel`; one unit is
spent per nesting level, and since every active level adds a distinct store
key to `visited`, a fuel of `ms.length + 1` (as used in `getMigrationOrder`)
is never exhausted, so the fuelled function agrees with the source's
unbounded recursion. -/
def dfs (ms : Store) : Nat → String → DfsState → DfsState
  | 0, _, s => s
  | fuel + 1, name, s =>
    if name ∈ s.visited then s
    else
      let s2 := ((depsOf ms name).filter (fun d => isModule ms d)).foldl
        (fun acc d => dfs ms fuel d acc) ⟨name :: s.visited, s.result⟩
      ⟨s2.visited, s2.result ++ [name]⟩

/-- Embeds `MigrationTracker.get_migration_order`: seed the traversal from
the modules with empty `dependents`, in store iteration order; then visit
every module, in store iteration order; finally return the reversed result
sequence. -/
def getMigrationOrder (ms : Store) : List String :=
  let fuel := ms.length + 1
  let s1 := (ms.filter (fun p => p.2.dependents.isEmpty)).foldl
    (fun s p => dfs ms fuel p.1 s) ⟨[], []⟩
  let s2 := ms.foldl (fun s p => dfs ms fuel p.1 s) s1
  s2.result.reverse

/-- Embeds `DependencyAnalyzer.__init__`'s `self.valid_dependencies`: the
fixed rule set, package → allowed dependency packages. -/
def validDependencies : List (String × List String) :=
  [ ("UmbraErrorKit", ["UmbraCoreTypes"]),
    ("UmbraInterfaces", ["UmbraCoreTypes", "UmbraErrorKit"]),
    ("UmbraUtils", ["UmbraCoreTypes"]),
    ("UmbraImplementations",
      ["UmbraInterfaces", "UmbraCoreTypes", "UmbraErrorKit", "UmbraUtils"]),
    ("UmbraFoundationBridge", ["UmbraCoreTypes"]),
    ("ResticKit", ["UmbraInterfaces", "UmbraCoreTypes", "UmbraUtils"]) ]

/-- Embeds `DependencyAnalyzer.is_dependency_valid`, parametrised by the
rule-set mapping the method reads from `self.valid_dependencies`. -/
def isDependencyValid (rules : List (String × List String))
    (source_pkg target_pkg : String) : Bool :=
  if source_pkg = target_pkg then true
  else
    match lookupKey rules source_pkg with
    | none => false
    | some allowed => target_pkg ∈ allowed

/-- Embeds the validation loop of `DependencyAnalyzer.analyze_dependencies`
(lines 132–137): for each source package of `package_deps`, in mapping
iteration order, and each of its recorded target packages, in set iteration
order, append the pair to `invalid_deps` when `is_dependency_valid` rejects
it. -/
def analyzeInvalidDeps (rules : List (String × List String))
    (package_deps : List (String × List String)) : List (String × String) :=
  package_deps.foldl
    (fun acc p =>
      acc ++ (p.2.filter (fun t => !(isDependencyValid rules p.1 t))).map
        (fun t => (p.1, t)))
    []

/-- Lexicographic strict order on strings as character lists (an executable
stand-in for the string order, used only by the spec-side sortedness
predicate below). -/
def strLtB : List Char → List Char → Bool
  | [], [] => false
  | [], _ :: _ => true
  | _ :: _, [] => false
  | c :: cs, d :: ds =>
    if c.val < d.val then true
    else if d.val < c.val then false
    else strLtB cs ds

/-- Lexicographic (non-strict) order on strings. -/
def strLeB (a b : String) : Bool := strLtB a.data b.data || a = b

/-- Spec-side predicate (from the spec's words, for claim C2 only): the
violation list is ordered stably by source, then by target. -/
def pairsSortedBySourceThenTarget (l : List (String × String)) : Prop :=
  List.Chain' (fun a b : String × String =>
    strLtB a.1.data b.1.data = true ∨ (a.1 = b.1 ∧ strLeB a.2 b.2 = true)) l

/-- Spec-side definition (the amended C2's words, for comparison with the
source's `analyzeInvalidDeps`): the violating pairs in input order — for
each (source, targets) entry of the mapping in iteration order, the pairs
(source, target) rejected by `is_dependency_valid`, with target in the
entry's iteration order. -/
def collectViolationsInOrder (rules : List (String × List String)) :
    List (String × List String) → List (String × String)
  | [] => []
  | p :: rest =>
    (p.2.filter (fun t => !(isDependencyValid rules p.1 t))).map
        (fun t => (p.1, t))
      ++ collectViolationsInOrder rules rest

/-- Relation between the traversal state at the start and at the end of any
completed `dfs` call (any fuel): the visited set only grows, the result only
gets appended to, a module that ends up visited but not in the result was
already pending at the start, and no module visited at the start is newly
appended to the result. -/
def StepRel (s s' : DfsState) : Prop :=
  (∀ x ∈ s.visited, x ∈ s'.visited) ∧
  (∃ t, s'.result = s.result ++ t) ∧
  (∀ x, x ∈ s'.visited → x ∉ s'.result → (x ∈ s.visited ∧ x ∉ s.result)) ∧
  (∀ x ∈ s.visited, (x ∈ s'.result ↔ x ∈ s.result))

/-- Invariant of the traversal state: the result sequence has no duplicates
and mentions only visited modules. -/
def NodupInv (s : DfsState) : Prop :=
  s.result.Nodup ∧ ∀ x ∈ s.result, x ∈ s.visited

/-- The Fact Store of the spec's ordering scenario: modules `X` (deps `[]`),
`Y` (deps `["X"]`), `Z` (deps `["Y"]`), with the implied `dependents`. -/
def xyzStore : Store :=
  [ ("X", { name := "X", status := .notStarted,
            dependencies := [], dependents := ["Y"] }),
    ("Y", { name := "Y", status := .notStarted,
            dependencies := ["X"], dependents := ["Z"] }),
    ("Z", { name := "Z", status := .notStarted,
            dependencies := ["Y"], dependents := [] }) ]

/-- A Fact Store with two modules, no dependency edges, no dependents,
inserted in name-sorted order `A`, `B`. -/
def edgelessStore : Store :=
  [ ("A", { name := "A", status := .notStarted,
            dependencies := [], dependents := [] }),
    ("B", { name := "B", status := .notStarted,
            dependencies := [], dependents := [] }) ]

/-- A concrete one-module store without a "Ghost" module. -/
def ghostStore : Store :=
  [ ("UmbraErrors",
      { name := "UmbraErrors", status := .completed,
        dependencies := [], dependents := [] }) ]

/-- A concrete in-progress module record. -/
def cdtosInfo : ModuleInfo :=
  { name := "CoreDTOs", status := .inProgress,
    dependencies := ["UmbraErrors"], dependents := [] }

/-- A concrete one-module store holding `cdtosInfo`. -/
def cdtosStore : Store := [("CoreDTOs", cdtosInfo)]

/-- A concrete not-started module record. -/
def frameInfo : ModuleInfo :=
  { name := "CoreDTOs", status := .notStarted,
    dependencies := ["UmbraErrors"], dependents := [] }

/-- A concrete two-module store for exercising a status update. -/
def frameStore : Store :=
  [ ("UmbraErrors",
      { name := "UmbraErrors", status := .completed,
        dependencies := [], dependents := ["CoreDTOs"] }),
    ("CoreDTOs", frameInfo) ]

/-- A concrete Validator input whose mapping iteration order is not sorted
by source: package `B` first, then package `A`, each recording one
dependency onto `UmbraCoreTypes` (a tracked target package). -/
def unsortedPackageDeps : List (String × List String) :=
  [("B", ["UmbraCoreTypes"]), ("A", ["UmbraCoreTypes"])]

/-! ### Basic lemmas about association-list lookup -/

theorem lookupKey_mem {β : Type} {l : List (String × β)} {k : String} {v : β}
    (h : lookupKey l k = some v) : (k, v) ∈ l := by
  induction l with
  | nil => simp [lookupKey] at h
  | cons p rest ih =>
    by_cases hk : p.1 = k
    · simp [lookupKey, hk] at h
      subst hk h
      exact List.mem_cons_self _ _
    · simp [lookupKey, hk] at h
      exact List.mem_cons_of_mem _ (ih h)

theorem lookupKey_isSome_of_mem {β : Type} {l : List (String × β)}
    {p : String × β} (h : p ∈ l) : (lookupKey l p.1).isSome = true := by
  induction l with
  | nil => simp at h
  | cons q rest ih =>
    rcases List.mem_cons.mp h with h | h
    · subst h; simp [lookupKey]
    · by_cases hq : q.1 = p.1
      · simp [lookupKey, hq]
      · simp [lookupKey, hq]
        exact ih h

theorem isModule_iff {ms : Store} {k : String} :
    isModule ms k = true ↔ k ∈ ms.map Prod.fst := by
  constructor
  · intro h
    rw [isModule, Option.isSome_iff_exists] at h
    obtain ⟨m, hm⟩ := h
    exact List.mem_map.mpr ⟨(k, m), lookupKey_mem hm, rfl⟩
  · intro h
    obtain ⟨p, hp, hk⟩ := List.mem_map.mp h
    subst hk
    exact lookupKey_isSome_of_mem hp

theorem lookupKey_map_update {ms : Store} {name : String}
    {g : ModuleInfo → ModuleInfo} :
    lookupKey (ms.map (fun p => if p.1 = name then (p.1, g p.2) else p)) name
      = (lookupKey ms name).map g := by
  induction ms with
  | nil => rfl
  | cons p rest ih =>
    by_cases hp : p.1 = name
    · simp [lookupKey, hp]
    · simp [lookupKey, hp, ih]

/-! ### Claim C4: `is_dependency_valid` -/

/-- C4: for every rule set and every pair of packages,
`is_dependency_valid(source, target)` is true iff the source equals the
target or the target is in the configured allow-list of the source; in
particular it is false (not an error) for an unknown source that differs
from the target, and true whenever source equals target regardless of the
rule set. -/
theorem is_dependency_valid_spec :
    (∀ (rules : List (String × List String)) (s t : String),
      isDependencyValid rules s t = true ↔
        (s = t ∨ ∃ l, lookupKey rules s = some l ∧ t ∈ l)) ∧
    (∀ (rules : List (String × List String)) (s t : String),
      lookupKey rules s = none → s ≠ t → isDependencyValid rules s t = false) ∧
    (∀ (rules : List (String × List String)) (s t : String),
      s = t → isDependencyValid rules s t = true) := by
  refine ⟨fun rules s t => ?_, fun rules s t hn hne => ?_, fun rules s t h => ?_⟩
  · rw [isDependencyValid]
    split
    · simp_all
    · rename_i hne
      cases hl : lookupKey rules s with
      | none => simp_all
      | some allowed => simp_all
  · simp [isDependencyValid, hne, hn]
  · simp [isDependencyValid, h]

/-- Witness for C4: the two conditional parts at concrete inputs. -/
theorem is_dependency_valid_spec_witness :
    isDependencyValid validDependencies "GhostKit" "UmbraCoreTypes" = false ∧
    isDependencyValid validDependencies "GhostKit" "GhostKit" = true :=
  ⟨is_dependency_valid_spec.2.1 validDependencies "GhostKit" "UmbraCoreTypes"
      (by decide) (by decide),
    is_dependency_valid_spec.2.2 validDependencies "GhostKit" "GhostKit" rfl⟩

/-! ### Claims C6, C7, C10: `update_module_status` -/

/-- C6: `update_module_status` on a module name absent from the store fails
with a boolean `false` (never a crash) and returns the store unmodified. -/
theorem update_module_status_absent_name
    (today : Nat) (ms : Store) (name : String) (status : MigrationStatus)
    (migration_date : Option Nat) (notes : Option String)
    (h : lookupKey ms name = none) :
    updateModuleStatus today ms name status migration_date notes
      = (false, ms) := by
  simp [updateModuleStatus, h]

/-- Witness for C6: the spec scenario — `setStatus("Ghost", Completed)` on a
store without a "Ghost" module. -/
theorem update_module_status_absent_name_witness :
    updateModuleStatus 7 ghostStore "Ghost" .completed none none
      = (false, ghostStore) :=
  update_module_status_absent_name 7 ghostStore "Ghost" .completed none none
    (by decide)

/-- C7: `update_module_status` on a present module, with status Completed and
no explicit date, succeeds, sets the module's status to Completed and stamps
its migration date with the current date. -/
theorem update_module_status_completed_stamps_today
    (today : Nat) (ms : Store) (name : String) (notes : Option String)
    (m : ModuleInfo) (h : lookupKey ms name = some m) :
    (updateModuleStatus today ms name .completed none notes).1 = true ∧
    lookupKey (updateModuleStatus today ms name .completed none notes).2 name
      = some (updateInfo today .completed none notes m) ∧
    (updateInfo today .completed none notes m).status = .completed ∧
    (updateInfo today .completed none notes m).migration_date = some today := by
  refine ⟨?_, ?_, rfl, ?_⟩
  · simp [updateModuleStatus, h]
  · simp only [updateModuleStatus, h]
    rw [lookupKey_map_update, h, Option.map_some']
  · simp [updateInfo]

/-- Witness for C7 at a concrete one-module store. -/
theorem update_module_status_completed_stamps_today_witness :
    (updateModuleStatus 42 cdtosStore "CoreDTOs" .completed none none).1
      = true ∧
    lookupKey
        (updateModuleStatus 42 cdtosStore "CoreDTOs" .completed none none).2
        "CoreDTOs"
      = some (updateInfo 42 .completed none none cdtosInfo) ∧
    (updateInfo 42 .completed none none cdtosInfo).status = .completed ∧
    (updateInfo 42 .completed none none cdtosInfo).migration_date = some 42 :=
  update_module_status_completed_stamps_today 42 cdtosStore "CoreDTOs" none
    cdtosInfo (by decide)

/-- C10: a successful `update_module_status` call changes at most the
status, migration date and notes of the named module: the key sequence of
the store is unchanged, every entry with a different key is kept as is, and
every entry of the result agrees with an entry of the original store (same
key) on the module's name, dependencies, dependents and blocking issues —
with the notes also unchanged when the notes argument is omitted. -/
theorem update_module_status_frame
    (today : Nat) (ms : Store) (name : String) (status : MigrationStatus)
    (migration_date : Option Nat) (notes : Option String)
    (m : ModuleInfo) (h : lookupKey ms name = some m) :
    (updateModuleStatus today ms name status migration_date notes).1 = true ∧
    (updateModuleStatus today ms name status migration_date notes).2.map Prod.fst
      = ms.map Prod.fst ∧
    (∀ p ∈ ms, p.1 ≠ name →
      p ∈ (updateModuleStatus today ms name status migration_date notes).2) ∧
    (∀ q ∈ (updateModuleStatus today ms name status migration_date notes).2,
      ∃ p ∈ ms, q.1 = p.1 ∧ q.2.name = p.2.name ∧
        q.2.dependencies = p.2.dependencies ∧
        q.2.dependents = p.2.dependents ∧
        q.2.blocking_issues = p.2.blocking_issues ∧
        (notes = none → q.2.notes = p.2.notes) ∧
        (q.1 ≠ name → q = p)) := by
  simp only [updateModuleStatus, h]
  refine ⟨trivial, ?_, ?_, ?_⟩
  · rw [List.map_map]
    apply List.map_congr_left
    intro p _
    by_cases hp : p.1 = name <;> simp [hp]
  · intro p hp hne
    have heq :
        (if p.1 = name then (p.1, updateInfo today status migration_date notes p.2) else p) = p := by
      simp [hne]
    exact heq ▸ List.mem_map_of_mem _ hp
  · intro q hq
    obtain ⟨p, hp, hq⟩ := List.mem_map.mp hq
    by_cases hpn : p.1 = name
    · rw [if_pos hpn] at hq
      subst hq
      exact ⟨p, hp, rfl, rfl, rfl, rfl, rfl,
        fun hn => by subst hn; rfl,
        fun hne => absurd hpn hne⟩
    · rw [if_neg hpn] at hq
      subst hq
      exact ⟨p, hp, rfl, rfl, rfl, rfl, rfl, fun _ => rfl, fun _ => rfl⟩

/-- Witness for C10 at a concrete two-module store. -/
theorem update_module_status_frame_witness :
    (updateModuleStatus 5 frameStore "CoreDTOs" .inProgress none none).1
      = true ∧
    (updateModuleStatus 5 frameStore "CoreDTOs" .inProgress none none).2.map
        Prod.fst
      = frameStore.map Prod.fst ∧
    (∀ p ∈ frameStore, p.1 ≠ "CoreDTOs" →
      p ∈ (updateModuleStatus 5 frameStore "CoreDTOs" .inProgress none
        none).2) ∧
    (∀ q ∈ (updateModuleStatus 5 frameStore "CoreDTOs" .inProgress none
        none).2,
      ∃ p ∈ frameStore, q.1 = p.1 ∧ q.2.name = p.2.name ∧
        q.2.dependencies = p.2.dependencies ∧
        q.2.dependents = p.2.dependents ∧
        q.2.blocking_issues = p.2.blocking_issues ∧
        ((none : Option String) = none → q.2.notes = p.2.notes) ∧
        (q.1 ≠ "CoreDTOs" → q = p)) :=
  update_module_status_frame 5 frameStore "CoreDTOs" .inProgress none none
    frameInfo (by decide)

/-! ### Claims C8, C9: snapshot persistence -/

theorem statusOfValue_value (st : MigrationStatus) :
    statusOfValue st.value = some st := by
  cases st <;> rfl

/-- C8: saving a Fact Store and loading the resulting snapshot reproduces a
store with the same module names, in the same order, each mapped to the same
status, dependencies, dependents, migration date, blocking issues and notes
(the loader re-derives each record's `name` field from its snapshot key). -/
theorem load_save_roundtrip (today : Nat) (ms : Store) :
    loadData today (some (saveData ms))
      = some (ms.map (fun p => (p.1, { p.2 with name := p.1 }))) := by
  rw [loadData]
  induction ms with
  | nil => rfl
  | cons p rest ih =>
    simp only [saveData, List.map_cons] at ih ⊢
    rw [convertEntries, statusOfValue_value, ih]

/-- C9: when the persisted snapshot cannot be parsed, the load does not
abort: it falls back to the default module set, so the Fact Store is still
populated (eight modules) after the call. -/
theorem load_data_corrupt_falls_back_to_defaults (today : Nat) :
    loadData today none = some (initializeDefaultModules today) ∧
    (initializeDefaultModules today).length = 8 :=
  ⟨rfl, rfl⟩

/-! ### Claim C1: `get_migration_order` versus dependency precedence -/

/-- C1 (code bug): on the spec's scenario store — `X` (deps `[]`),
`Y` (deps `["X"]`), `Z` (deps `["Y"]`) — `get_migration_order` returns
`[Z, Y, X]`, not `[X, Y, Z]`: although `X` is a dependency of `Y` and both
modules are in the store, `X` is placed after `Y` (at a strictly greater
index), so the returned sequence does not place a module's dependency
strictly before the module. -/
theorem get_migration_order_reverses_dependency_order :
    getMigrationOrder xyzStore = ["Z", "Y", "X"] ∧
    "X" ∈ depsOf xyzStore "Y" ∧
    isModule xyzStore "X" = true ∧
    isModule xyzStore "Y" = true ∧
    ¬ List.indexOf "X" (getMigrationOrder xyzStore)
        < List.indexOf "Y" (getMigrationOrder xyzStore) := by
  refine ⟨by decide, by decide, by decide, by decide, by decide⟩

/-! ### Claim C2: `analyze_dependencies` violation collection -/

theorem foldl_append_acc {α β : Type} (f : α → List β) :
    ∀ (l : List α) (acc : List β),
      l.foldl (fun a x => a ++ f x) acc
        = acc ++ l.foldl (fun a x => a ++ f x) [] := by
  intro l
  induction l with
  | nil => simp
  | cons x xs ih =>
    intro acc
    simp only [List.foldl_cons, List.nil_append]
    rw [ih (acc ++ f x), ih (f x), List.append_assoc]

theorem analyzeInvalidDeps_cons (rules : List (String × List String))
    (p : String × List String) (pd : List (String × List String)) :
    analyzeInvalidDeps rules (p :: pd)
      = (p.2.filter (fun t => !(isDependencyValid rules p.1 t))).map
          (fun t => (p.1, t)) ++ analyzeInvalidDeps rules pd := by
  unfold analyzeInvalidDeps
  simp only [List.foldl_cons, List.nil_append]
  exact foldl_append_acc _ pd _

theorem mem_analyzeInvalidDeps {rules pd : List (String × List String)}
    {s t : String} :
    (s, t) ∈ analyzeInvalidDeps rules pd ↔
      ∃ ts, (s, ts) ∈ pd ∧ t ∈ ts ∧ isDependencyValid rules s t = false := by
  induction pd with
  | nil => simp [analyzeInvalidDeps]
  | cons p pd ih =>
    rw [analyzeInvalidDeps_cons]
    simp only [List.mem_append, ih, List.mem_map, List.mem_filter,
      Bool.not_eq_true']
    constructor
    · rintro (⟨t', ⟨ht', hinv⟩, heq⟩ | ⟨ts, hts, ht, hinv⟩)
      · injection heq with hs ht
        subst hs ht
        exact ⟨p.2, List.mem_cons_self _ _, ht', hinv⟩
      · exact ⟨ts, List.mem_cons_of_mem _ hts, ht, hinv⟩
    · rintro ⟨ts, hts, ht, hinv⟩
      rcases List.mem_cons.mp hts with heq | hmem
      · subst heq
        exact Or.inl ⟨t, ⟨ht, hinv⟩, rfl⟩
      · exact Or.inr ⟨ts, hmem, ht, hinv⟩

theorem analyzeInvalidDeps_fst {rules pd : List (String × List String)}
    {q : String × String} (hq : q ∈ analyzeInvalidDeps rules pd) :
    q.1 ∈ pd.map Prod.fst := by
  obtain ⟨s, t⟩ := q
  obtain ⟨ts, hts, -, -⟩ := mem_analyzeInvalidDeps.mp hq
  exact List.mem_map.mpr ⟨(s, ts), hts, rfl⟩

theorem nodup_analyzeInvalidDeps {rules pd : List (String × List String)}
    (hkeys : (pd.map Prod.fst).Nodup) (hts : ∀ p ∈ pd, p.2.Nodup) :
    (analyzeInvalidDeps rules pd).Nodup := by
  induction pd with
  | nil => simp [analyzeInvalidDeps]
  | cons p pd ih =>
    rw [analyzeInvalidDeps_cons]
    simp only [List.map_cons, List.nodup_cons] at hkeys
    refine List.Nodup.append ?_
      (ih hkeys.2 (fun q hq => hts q (List.mem_cons_of_mem _ hq))) ?_
    · refine List.Nodup.map (fun a b hab => congrArg Prod.snd hab) ?_
      exact (hts p (List.mem_cons_self _ _)).filter _
    · intro x hx1 hx2
      obtain ⟨t', -, heq⟩ := List.mem_map.mp hx1
      have hfst : x.1 = p.1 := congrArg Prod.fst heq.symm
      exact hkeys.1 (hfst ▸ analyzeInvalidDeps_fst hx2)

/-- C2 (counterexample): at the Validator input `{B: {UmbraCoreTypes},
A: {UmbraCoreTypes}}` (mapping iteration order B before A, both unknown
source packages, so both pairs violate), `analyze_dependencies` collects
`[(B, UmbraCoreTypes), (A, UmbraCoreTypes)]`, which is not ordered by
source: the claimed stable (source, target) ordering fails. -/
theorem analyze_dependencies_output_not_sorted :
    analyzeInvalidDeps validDependencies unsortedPackageDeps
      = [("B", "UmbraCoreTypes"), ("A", "UmbraCoreTypes")] ∧
    ¬ pairsSortedBySourceThenTarget
        (analyzeInvalidDeps validDependencies unsortedPackageDeps) := by
  refine ⟨by decide, ?_⟩
  intro h
  rw [pairsSortedBySourceThenTarget,
    show analyzeInvalidDeps validDependencies unsortedPackageDeps
      = [("B", "UmbraCoreTypes"), ("A", "UmbraCoreTypes")] from by decide]
    at h
  rcases (List.chain'_cons.mp h).1 with hlt | ⟨heq, -⟩
  · exact absurd hlt (by decide)
  · exact absurd heq (by decide)

theorem analyzeInvalidDeps_eq_inOrder
    (rules : List (String × List String)) :
    ∀ pd : List (String × List String),
      analyzeInvalidDeps rules pd = collectViolationsInOrder rules pd := by
  intro pd
  induction pd with
  | nil => rfl
  | cons p pd ih => rw [analyzeInvalidDeps_cons, collectViolationsInOrder, ih]

/-- C2 (amended): for every input mapping with distinct sources, each mapped
to a set of distinct targets, `analyze_dependencies` collects exactly those
pairs (source, target) for which `is_dependency_valid` is false — each such
pair exactly once (the collected list has no duplicates) — and does so in
mapping/set iteration order (the output equals the in-order concatenation,
over the mapping's entries, of each entry's rejected targets paired with its
source), not sorted by source and target. -/
theorem analyze_dependencies_collects_exactly_invalid_pairs
    (rules pd : List (String × List String))
    (hkeys : (pd.map Prod.fst).Nodup) (hts : ∀ p ∈ pd, p.2.Nodup) :
    analyzeInvalidDeps rules pd = collectViolationsInOrder rules pd ∧
    (analyzeInvalidDeps rules pd).Nodup ∧
    ∀ s t, ((s, t) ∈ analyzeInvalidDeps rules pd ↔
      ∃ ts, (s, ts) ∈ pd ∧ t ∈ ts ∧ isDependencyValid rules s t = false) :=
  ⟨analyzeInvalidDeps_eq_inOrder rules pd,
    nodup_analyzeInvalidDeps hkeys hts, fun _ _ => mem_analyzeInvalidDeps⟩

/-- Witness for C2's amended theorem at the concrete unsorted input. -/
theorem analyze_dependencies_collects_exactly_invalid_pairs_witness :
    analyzeInvalidDeps validDependencies unsortedPackageDeps
      = collectViolationsInOrder validDependencies unsortedPackageDeps ∧
    (analyzeInvalidDeps validDependencies unsortedPackageDeps).Nodup ∧
    ∀ s t, ((s, t) ∈ analyzeInvalidDeps validDependencies unsortedPackageDeps ↔
      ∃ ts, (s, ts) ∈ unsortedPackageDeps ∧ t ∈ ts ∧
        isDependencyValid validDependencies s t = false) :=
  analyze_dependencies_collects_exactly_invalid_pairs validDependencies
    unsortedPackageDeps (by decide) (by decide)

/-! ### Traversal invariants of `get_migration_order` -/

theorem dfs_zero (ms : Store) (name : String) (s : DfsState) :
    dfs ms 0 name s = s := rfl

theorem dfs_succ (ms : Store) (fuel : Nat) (name : String) (s : DfsState) :
    dfs ms (fuel + 1) name s =
      if name ∈ s.visited then s
      else
        DfsState.mk
          (((depsOf ms name).filter (fun d => isModule ms d)).foldl
            (fun acc d => dfs ms fuel d acc) ⟨name :: s.visited, s.result⟩).visited
          ((((depsOf ms name).filter (fun d => isModule ms d)).foldl
            (fun acc d => dfs ms fuel d acc) ⟨name :: s.visited, s.result⟩).result
            ++ [name]) := rfl

theorem stepRel_refl (s : DfsState) : StepRel s s :=
  ⟨fun _ hx => hx, ⟨[], by simp⟩, fun _ hv hr => ⟨hv, hr⟩, fun _ _ => Iff.rfl⟩

theorem stepRel_trans {a b c : DfsState} (hab : StepRel a b)
    (hbc : StepRel b c) : StepRel a c := by
  obtain ⟨m1, ⟨t1, ht1⟩, p1, k1⟩ := hab
  obtain ⟨m2, ⟨t2, ht2⟩, p2, k2⟩ := hbc
  refine ⟨fun x hx => m2 x (m1 x hx), ⟨t1 ++ t2, by simp [ht2, ht1]⟩,
    ?_, ?_⟩
  · intro x hv hr
    obtain ⟨hvb, hrb⟩ := p2 x hv hr
    exact p1 x hvb hrb
  · intro x hx
    exact (k2 x (m1 x hx)).trans (k1 x hx)

theorem rel_foldl {α : Type} (R : DfsState → DfsState → Prop)
    (hrefl : ∀ s, R s s)
    (htrans : ∀ {a b c : DfsState}, R a b → R b c → R a c)
    (f : α → DfsState → DfsState) :
    ∀ (l : List α), (∀ d ∈ l, ∀ s, R s (f d s)) →
      ∀ s, R s (l.foldl (fun acc d => f d acc) s) := by
  intro l
  induction l with
  | nil => intro _ s; exact hrefl s
  | cons d ds ih =>
    intro h s
    simp only [List.foldl_cons]
    exact htrans (h d (List.mem_cons_self _ _) s)
      (ih (fun e he s' => h e (List.mem_cons_of_mem _ he) s') (f d s))

theorem dfs_stepRel (ms : Store) :
    ∀ (fuel : Nat) (name : String) (s : DfsState),
      StepRel s (dfs ms fuel name s) := by
  intro fuel
  induction fuel with
  | zero => intro name s; rw [dfs_zero]; exact stepRel_refl s
  | succ fuel ih =>
    intro name s
    rw [dfs_succ]
    by_cases hmem : name ∈ s.visited
    · rw [if_pos hmem]; exact stepRel_refl s
    · rw [if_neg hmem]
      have h2 : StepRel ⟨name :: s.visited, s.result⟩
          (((depsOf ms name).filter (fun d => isModule ms d)).foldl
            (fun acc d => dfs ms fuel d acc) ⟨name :: s.visited, s.result⟩) :=
        rel_foldl StepRel stepRel_refl stepRel_trans (dfs ms fuel) _
          (fun d _ s' => ih d s') _
      obtain ⟨m2, ⟨t2, ht2⟩, p2, k2⟩ := h2
      refine ⟨?_, ?_, ?_, ?_⟩
      · intro x hx
        exact m2 x (List.mem_cons_of_mem _ hx)
      · exact ⟨t2 ++ [name], by simp [ht2]⟩
      · intro x hv hr
        simp only [List.mem_append, List.mem_singleton, not_or] at hr
        obtain ⟨hvb, hrb⟩ := p2 x hv hr.1
        rcases List.mem_cons.mp hvb with heq | hvs
        · exact absurd heq hr.2
        · exact ⟨hvs, hrb⟩
      · intro x hx
        have hxname : x ≠ name := fun h => hmem (h ▸ hx)
        simp only [List.mem_append, List.mem_singleton, hxname, or_false]
        exact k2 x (List.mem_cons_of_mem _ hx)

theorem dfs_nodupInv (ms : Store) :
    ∀ (fuel : Nat) (name : String) (s : DfsState),
      NodupInv s → NodupInv (dfs ms fuel name s) := by
  intro fuel
  induction fuel with
  | zero => intro name s h; rw [dfs_zero]; exact h
  | succ fuel ih =>
    intro name s h
    rw [dfs_succ]
    by_cases hmem : name ∈ s.visited
    · rw [if_pos hmem]; exact h
    · rw [if_neg hmem]
      have h1 : NodupInv ⟨name :: s.visited, s.result⟩ :=
        ⟨h.1, fun x hx => List.mem_cons_of_mem _ (h.2 x hx)⟩
      have h2 := rel_foldl
        (fun a b => StepRel a b ∧ (NodupInv a → NodupInv b))
        (fun s' => ⟨stepRel_refl s', id⟩)
        (fun {a b c : DfsState} hab hbc =>
          ⟨stepRel_trans hab.1 hbc.1, fun hn => hbc.2 (hab.2 hn)⟩)
        (dfs ms fuel) ((depsOf ms name).filter (fun d => isModule ms d))
        (fun d _ s' => ⟨dfs_stepRel ms fuel d s', ih d s'⟩)
        (⟨name :: s.visited, s.result⟩ : DfsState)
      obtain ⟨⟨m2, ⟨t2, ht2⟩, p2, k2⟩, himp⟩ := h2
      have hn2 := himp h1
      have hname : name ∉
          (((depsOf ms name).filter (fun d => isModule ms d)).foldl
            (fun acc d => dfs ms fuel d acc)
            ⟨name :: s.visited, s.result⟩).result := by
        intro hcon
        have : name ∈ s.result :=
          (k2 name (List.mem_cons_self _ _)).mp hcon
        exact hmem (h.2 name this)
      constructor
      · rw [← List.concat_eq_append]
        exact List.Nodup.concat hname hn2.1
      · intro x hx
        rcases List.mem_append.mp hx with hx | hx
        · exact hn2.2 x hx
        · rw [List.mem_singleton.mp hx]
          exact m2 name (List.mem_cons_self _ _)

theorem dfs_visited_subkeys (ms : Store) :
    ∀ (fuel : Nat) (name : String) (s : DfsState),
      isModule ms name = true →
      (∀ x ∈ s.visited, isModule ms x = true) →
      ∀ x ∈ (dfs ms fuel name s).visited, isModule ms x = true := by
  intro fuel
  induction fuel with
  | zero => intro name s _ h; rw [dfs_zero]; exact h
  | succ fuel ih =>
    intro name s hname h
    rw [dfs_succ]
    by_cases hmem : name ∈ s.visited
    · rw [if_pos hmem]; exact h
    · rw [if_neg hmem]
      have h1 : ∀ x ∈ (⟨name :: s.visited, s.result⟩ : DfsState).visited,
          isModule ms x = true := by
        intro x hx
        rcases List.mem_cons.mp hx with rfl | hx
        · exact hname
        · exact h x hx
      exact rel_foldl
        (fun a b => (∀ x ∈ a.visited, isModule ms x = true) →
          (∀ x ∈ b.visited, isModule ms x = true))
        (fun _ => id)
        (fun {a b c : DfsState} hab hbc hn => hbc (hab hn))
        (dfs ms fuel) _
        (fun d hd s' hs' => ih d s' (List.of_mem_filter hd) hs') _ h1

theorem dfs_visits (ms : Store) (fuel : Nat) (name : String) (s : DfsState)
    (hfuel : 1 ≤ fuel) : name ∈ (dfs ms fuel name s).visited := by
  cases fuel with
  | zero => omega
  | succ fuel =>
    rw [dfs_succ]
    by_cases hmem : name ∈ s.visited
    · rw [if_pos hmem]; exact hmem
    · rw [if_neg hmem]
      have h2 : StepRel ⟨name :: s.visited, s.result⟩
          (((depsOf ms name).filter (fun d => isModule ms d)).foldl
            (fun acc d => dfs ms fuel d acc) ⟨name :: s.visited, s.result⟩) :=
        rel_foldl StepRel stepRel_refl stepRel_trans (dfs ms fuel) _
          (fun d _ s' => dfs_stepRel ms fuel d s') _
      exact h2.1 name (List.mem_cons_self _ _)

theorem foldl_visits (ms : Store) (fuel : Nat) (hfuel : 1 ≤ fuel) :
    ∀ (ps : List (String × ModuleInfo)) (s : DfsState),
      ∀ p ∈ ps, p.1 ∈ (ps.foldl (fun s q => dfs ms fuel q.1 s) s).visited := by
  intro ps
  induction ps with
  | nil => intro s p hp; simp at hp
  | cons q ps ih =>
    intro s p hp
    simp only [List.foldl_cons]
    rcases List.mem_cons.mp hp with rfl | hmem
    · have h1 : p.1 ∈ (dfs ms fuel p.1 s).visited :=
        dfs_visits ms fuel p.1 s hfuel
      have h2 : StepRel (dfs ms fuel p.1 s)
          (ps.foldl (fun s q => dfs ms fuel q.1 s) (dfs ms fuel p.1 s)) :=
        rel_foldl StepRel stepRel_refl stepRel_trans
          (fun (q : String × ModuleInfo) s' => dfs ms fuel q.1 s') _
          (fun q _ s' => dfs_stepRel ms fuel q.1 s') _
      exact h2.1 p.1 h1
    · exact ih (dfs ms fuel q.1 s) p hmem

/-- C5: on every Fact Store, `get_migration_order` terminates without
failure (it is a total function of the store) and returns a sequence with no
duplicates whose members are exactly the store's module names — every module
appears exactly once, with no hypothesis on the `dependents` bookkeeping or
on cycles in the dependency graph. -/
theorem get_migration_order_is_permutation (ms : Store) :
    (getMigrationOrder ms).Nodup ∧
    ∀ k, (k ∈ getMigrationOrder ms ↔ k ∈ ms.map Prod.fst) := by
  have hdef : getMigrationOrder ms =
      (ms.foldl (fun s p => dfs ms (ms.length + 1) p.1 s)
        ((ms.filter (fun p => p.2.dependents.isEmpty)).foldl
          (fun s p => dfs ms (ms.length + 1) p.1 s)
          ⟨[], []⟩)).result.reverse := rfl
  set fuel := ms.length + 1 with hfueldef
  set s1 := (ms.filter (fun p => p.2.dependents.isEmpty)).foldl
    (fun s p => dfs ms fuel p.1 s) (⟨[], []⟩ : DfsState) with hs1
  set s2 := ms.foldl (fun s p => dfs ms fuel p.1 s) s1 with hs2
  have hstep : ∀ (ps : List (String × ModuleInfo)) (s : DfsState),
      StepRel s (ps.foldl (fun s q => dfs ms fuel q.1 s) s) :=
    fun ps s => rel_foldl StepRel stepRel_refl stepRel_trans
      (fun (q : String × ModuleInfo) s' => dfs ms fuel q.1 s') ps
      (fun q _ s' => dfs_stepRel ms fuel q.1 s') s
  have hnod : ∀ (ps : List (String × ModuleInfo)) (s : DfsState),
      NodupInv s → NodupInv (ps.foldl (fun s q => dfs ms fuel q.1 s) s) :=
    fun ps s h => rel_foldl (fun a b => NodupInv a → NodupInv b)
      (fun _ => id) (fun {a b c : DfsState} hab hbc hn => hbc (hab hn))
      (fun (q : String × ModuleInfo) s' => dfs ms fuel q.1 s') ps
      (fun q _ s' => dfs_nodupInv ms fuel q.1 s') s h
  have hsub : ∀ (ps : List (String × ModuleInfo)), (∀ q ∈ ps, q ∈ ms) →
      ∀ (s : DfsState), (∀ x ∈ s.visited, isModule ms x = true) →
      ∀ x ∈ (ps.foldl (fun s q => dfs ms fuel q.1 s) s).visited,
        isModule ms x = true :=
    fun ps hps s h => rel_foldl
      (fun a b => (∀ x ∈ a.visited, isModule ms x = true) →
        (∀ x ∈ b.visited, isModule ms x = true))
      (fun _ => id) (fun {a b c : DfsState} hab hbc hn => hbc (hab hn))
      (fun (q : String × ModuleInfo) s' => dfs ms fuel q.1 s') ps
      (fun q hq s' hs' =>
        dfs_visited_subkeys ms fuel q.1 s'
          (lookupKey_isSome_of_mem (hps q hq)) hs') s h
  have hr1 : StepRel ⟨[], []⟩ s1 := hstep _ _
  have hr2 : StepRel s1 s2 := hstep _ _
  have hr : StepRel ⟨[], []⟩ s2 := stepRel_trans hr1 hr2
  have hn2 : NodupInv s2 :=
    hnod _ _ (hnod _ _ ⟨List.nodup_nil, fun x hx => absurd hx (List.not_mem_nil x)⟩)
  have hkeys2 : ∀ x ∈ s2.visited, isModule ms x = true := by
    refine hsub ms (fun q hq => hq) s1 ?_
    refine hsub _ (fun q hq => List.mem_of_mem_filter hq) ⟨[], []⟩ ?_
    intro x hx
    exact absurd hx (List.not_mem_nil x)
  have hvr : ∀ x ∈ s2.visited, x ∈ s2.result := by
    intro x hx
    by_contra hnr
    exact absurd (hr.2.2.1 x hx hnr).1 (List.not_mem_nil x)
  have hcomp : ∀ p ∈ ms, p.1 ∈ s2.visited :=
    fun p hp => foldl_visits ms fuel (by omega) ms s1 p hp
  constructor
  · rw [hdef]
    exact List.nodup_reverse.mpr hn2.1
  · intro k
    rw [hdef, List.mem_reverse]
    constructor
    · intro hk
      exact isModule_iff.mp (hkeys2 k (hn2.2 k hk))
    · intro hk
      obtain ⟨p, hp, hpk⟩ := List.mem_map.mp hk
      exact hpk ▸ hvr p.1 (hcomp p hp)

/-! ### Claim C3: `get_migration_order` on stores without dependency edges -/

theorem depsOf_nil {ms : Store} (hdeps : ∀ p ∈ ms, p.2.dependencies = [])
    (name : String) : depsOf ms name = [] := by
  rw [depsOf]
  cases hlk : lookupKey ms name with
  | none => rfl
  | some m => exact hdeps (name, m) (lookupKey_mem hlk)

theorem dfs_nodeps {ms : Store} (hdeps : ∀ p ∈ ms, p.2.dependencies = [])
    (fuel : Nat) (name : String) (s : DfsState) :
    dfs ms (fuel + 1) name s =
      if name ∈ s.visited then s
      else ⟨name :: s.visited, s.result ++ [name]⟩ := by
  rw [dfs_succ, depsOf_nil hdeps]
  rfl

theorem foldl_nodeps {ms : Store} (hdeps : ∀ p ∈ ms, p.2.dependencies = [])
    (fuel : Nat) :
    ∀ (ps : List (String × ModuleInfo)), (ps.map Prod.fst).Nodup →
      ∀ (s : DfsState),
        (ps.foldl (fun s q => dfs ms (fuel + 1) q.1 s) s).result
            = s.result
              ++ (ps.map Prod.fst).filter (fun k => !(decide (k ∈ s.visited))) ∧
        ∀ x, (x ∈ (ps.foldl (fun s q => dfs ms (fuel + 1) q.1 s) s).visited
          ↔ (x ∈ s.visited ∨ x ∈ ps.map Prod.fst)) := by
  intro ps
  induction ps with
  | nil => intro _ s; simp
  | cons q ps ih =>
    intro hnd s
    simp only [List.map_cons, List.nodup_cons] at hnd
    simp only [List.foldl_cons]
    rw [dfs_nodeps hdeps]
    by_cases hmem : q.1 ∈ s.visited
    · rw [if_pos hmem]
      obtain ⟨hres, hvis⟩ := ih hnd.2 s
      constructor
      · rw [hres]
        simp only [List.map_cons]
        rw [List.filter_cons]
        simp [hmem]
      · intro x
        rw [hvis x]
        simp only [List.map_cons, List.mem_cons]
        constructor
        · rintro (hx | hx)
          · exact Or.inl hx
          · exact Or.inr (Or.inr hx)
        · rintro (hx | rfl | hx)
          · exact Or.inl hx
          · exact Or.inl hmem
          · exact Or.inr hx
    · rw [if_neg hmem]
      obtain ⟨hres, hvis⟩ := ih hnd.2 (⟨q.1 :: s.visited, s.result ++ [q.1]⟩ : DfsState)
      constructor
      · rw [hres]
        simp only [List.map_cons]
        rw [List.filter_cons]
        have hcong :
            (ps.map Prod.fst).filter
                (fun k => !(decide (k ∈ (⟨q.1 :: s.visited, s.result ++ [q.1]⟩ : DfsState).visited)))
              = (ps.map Prod.fst).filter (fun k => !(decide (k ∈ s.visited))) := by
          apply List.filter_congr
          intro k hk
          have hkq : k ≠ q.1 := fun h => hnd.1 (h ▸ hk)
          simp [List.mem_cons, hkq]
        rw [hcong]
        simp [hmem]
      · intro x
        rw [hvis x]
        simp only [List.mem_cons, List.map_cons]
        constructor
        · rintro ((rfl | hx) | hx)
          · exact Or.inr (Or.inl rfl)
          · exact Or.inl hx
          · exact Or.inr (Or.inr hx)
        · rintro (hx | rfl | hx)
          · exact Or.inl (Or.inr hx)
          · exact Or.inl (Or.inl rfl)
          · exact Or.inr hx

theorem filter_map_fst {β : Type} (l : List (String × β)) (p : String → Bool) :
    (l.map Prod.fst).filter p = (l.filter (fun q => p q.1)).map Prod.fst := by
  induction l with
  | nil => rfl
  | cons q l ih =>
    simp only [List.map_cons, List.filter_cons]
    by_cases hp : p q.1 = true
    · simp [hp, ih]
    · simp only [Bool.not_eq_true] at hp
      simp [hp, ih]

theorem eq_of_mem_of_nodup_keys {β : Type} {l : List (String × β)}
    (h : (l.map Prod.fst).Nodup) {p q : String × β} (hp : p ∈ l) (hq : q ∈ l)
    (hk : p.1 = q.1) : p = q := by
  induction l with
  | nil => simp at hp
  | cons a l ih =>
    simp only [List.map_cons, List.nodup_cons] at h
    rcases List.mem_cons.mp hp with rfl | hp' <;>
      rcases List.mem_cons.mp hq with rfl | hq'
    · rfl
    · exact absurd (hk ▸ List.mem_map_of_mem Prod.fst hq') h.1
    · exact absurd (hk ▸ List.mem_map_of_mem Prod.fst hp') h.1
    · exact ih h.2 hp' hq'

/-- C3 (counterexample): the store with modules `A` and `B`, inserted in
name-sorted order, with no dependency edges and empty `dependents` lists:
`get_migration_order` returns `[B, A]`, not the name-sorted `[A, B]` the
claim requires. -/
theorem migration_order_not_sorted_on_edgeless_store :
    (∀ p ∈ edgelessStore, p.2.dependencies = []) ∧
    getMigrationOrder edgelessStore = ["B", "A"] ∧
    getMigrationOrder edgelessStore ≠ ["A", "B"] := by
  refine ⟨by decide, by decide, by decide⟩

/-- C3 (amended): on every Fact Store with distinct module names in which
every module's dependency list is empty, `get_migration_order` returns every
module exactly once, namely the reverse of: the modules with empty
`dependents` lists in store iteration (insertion) order, followed by the
remaining modules in store iteration order. The seeding is in iteration
order, not in module-name sorted order, and the final reversal flips the
output. -/
theorem migration_order_on_edgeless_store (ms : Store)
    (hkeys : (ms.map Prod.fst).Nodup)
    (hdeps : ∀ p ∈ ms, p.2.dependencies = []) :
    getMigrationOrder ms
      = ((ms.filter (fun p => p.2.dependents.isEmpty)).map Prod.fst
          ++ (ms.filter (fun p => !p.2.dependents.isEmpty)).map Prod.fst).reverse := by
  have hdef : getMigrationOrder ms =
      (ms.foldl (fun s p => dfs ms (ms.length + 1) p.1 s)
        ((ms.filter (fun p => p.2.dependents.isEmpty)).foldl
          (fun s p => dfs ms (ms.length + 1) p.1 s)
          ⟨[], []⟩)).result.reverse := rfl
  rw [hdef]
  have hrootnd :
      ((ms.filter (fun p => p.2.dependents.isEmpty)).map Prod.fst).Nodup :=
    List.Nodup.sublist (List.Sublist.map Prod.fst (List.filter_sublist ms))
      hkeys
  obtain ⟨hres1, hvis1⟩ :=
    foldl_nodeps hdeps ms.length (ms.filter (fun p => p.2.dependents.isEmpty))
      hrootnd (⟨[], []⟩ : DfsState)
  obtain ⟨hres2, hvis2⟩ :=
    foldl_nodeps hdeps ms.length ms hkeys
      ((ms.filter (fun p => p.2.dependents.isEmpty)).foldl
        (fun s p => dfs ms (ms.length + 1) p.1 s) ⟨[], []⟩)
  have hroots : ((ms.filter (fun p => p.2.dependents.isEmpty)).foldl
      (fun s p => dfs ms (ms.length + 1) p.1 s) (⟨[], []⟩ : DfsState)).result
        = (ms.filter (fun p => p.2.dependents.isEmpty)).map Prod.fst := by
    rw [hres1]
    simp
  have hfc : (ms.map Prod.fst).filter (fun k =>
        !(decide (k ∈ ((ms.filter (fun p => p.2.dependents.isEmpty)).foldl
          (fun s p => dfs ms (ms.length + 1) p.1 s)
          (⟨[], []⟩ : DfsState)).visited)))
      = (ms.filter (fun p => !p.2.dependents.isEmpty)).map Prod.fst := by
    rw [filter_map_fst]
    congr 1
    apply List.filter_congr
    intro q hq
    have hiff : q.1 ∈ ((ms.filter (fun p => p.2.dependents.isEmpty)).foldl
          (fun s p => dfs ms (ms.length + 1) p.1 s)
          (⟨[], []⟩ : DfsState)).visited
        ↔ q.2.dependents.isEmpty = true := by
      rw [hvis1 q.1]
      constructor
      · rintro (hx | hx)
        · exact absurd hx (List.not_mem_nil _)
        · obtain ⟨r, hr, hrq⟩ := List.mem_map.mp hx
          have hreq : r = q :=
            eq_of_mem_of_nodup_keys hkeys (List.mem_of_mem_filter hr) hq hrq
          subst hreq
          exact (List.mem_filter.mp hr).2
      · intro hb
        exact Or.inr (List.mem_map_of_mem Prod.fst (List.mem_filter.mpr ⟨hq, hb⟩))
    cases hb : q.2.dependents.isEmpty with
    | true => simp [hiff, hb]
    | false => simp [hiff, hb]
  rw [hres2, hroots, hfc]

/-- Witness for C3's amended theorem at the concrete two-module store. -/
theorem migration_order_on_edgeless_store_witness :
    getMigrationOrder edgelessStore
      = ((edgelessStore.filter (fun p => p.2.dependents.isEmpty)).map Prod.fst
          ++ (edgelessStore.filter (fun p => !p.2.dependents.isEmpty)).map
              Prod.fst).reverse :=
  migration_order_on_edgeless_store edgelessStore (by decide) (by decide)
